import Mathlib

/-
Verification of the DiskANN parallel execution substrate.

This file gives a shallow embedding, in Lean 4, of the scheduling and
synchronization logic of the repository's parallel layer:

  * include/diskann_parallel.h   (namespace DiskannH below):
      ThreadPool (queue, stop flag, worker loop, enqueue),
      parallel_for, parallel_for_static, parallel_for_dynamic
  * include/parallel_framework.h (namespace ParallelH below):
      ThreadPool::enqueue (with its stop check), barrier, single_executor,
      reduction_variable, parallel_reduce
  * include/parallel_utils.h     (namespace UtilsH below):
      parallel_for partitioning, parallel_reduce

Modelling conventions.  Machine integers become Nat (ranges and chunk
sizes are sizes; no overflow is relevant to the verified properties).
A task body is abstracted by the index it receives; the effect of a
scheduling entry point is captured by the list of indices on which the
body is invoked, chunk by chunk in dispatch order.  The task queue is a
Lean list; C++ exceptions become an Except value.  Where a function's
behaviour depends on runtime thread identities (fetch-and-add cursors,
thread-id keyed slots) the embedding takes the identity assignment as an
explicit parameter, so every realizable execution corresponds to some
parameter value.
-/

namespace DiskANNVerify

/-- A queued unit of work.  `enqueue` never inspects the closure it is
handed, so an opaque identifier is a faithful model of a task. -/
abbrev Task := Nat

/-- Shared state of a thread pool's queue: the FIFO of pending tasks and
the stop flag (both protected by `queue_mutex` in the source). -/
structure PoolState where
  tasks : List Task
  stop : Bool
deriving DecidableEq

namespace ParallelH

/-- Embedding of `ThreadPool::enqueue` from include/parallel_framework.h
(lines 64-73): under the queue lock, if `stop` is set it throws
`std::runtime_error("enqueue on stopped ThreadPool")`, otherwise it
appends the task to the queue. -/
def enqueue (st : PoolState) (t : Task) : Except String PoolState :=
  if st.stop then Except.error "enqueue on stopped ThreadPool"
  else Except.ok { st with tasks := st.tasks ++ [t] }

end ParallelH

namespace DiskannH

/-- Embedding of `ThreadPool::enqueue` from include/diskann_parallel.h
(lines 83-98): the task is wrapped in a packaged_task and appended to the
queue under the lock.  The source performs no check of the stop flag on
this path and never throws, so the embedding always succeeds; the result
type matches `ParallelH.enqueue` so the two behaviours can be compared. -/
def enqueue (st : PoolState) (t : Task) : Except String PoolState :=
  Except.ok { st with tasks := st.tasks ++ [t] }

/-- What a worker thread does after one pass through its loop body. -/
inductive WorkerAct where
  | exit
  | run (t : Task)
  | block
deriving DecidableEq

/-- One iteration of the worker loop of include/diskann_parallel.h
(lines 56-68): wait until `stop || !tasks.empty()`; on wake, if
`stop && tasks.empty()` return (exit the thread); otherwise pop the
front task and execute it.  Returns the action taken and the queue
contents afterwards; `block` is the case in which the condition-variable
predicate is false and the worker keeps sleeping. -/
def workerStep (stop : Bool) (q : List Task) : WorkerAct × List Task :=
  if stop ∧ q = [] then (WorkerAct.exit, q)
  else
    match q with
    | t :: rest => (WorkerAct.run t, rest)
    | [] => (WorkerAct.block, q)

/-- Iterated worker steps with the stop flag set, as during destruction
of the pool (`~ThreadPool`, lines 72-81: set `stop`, notify all, join).
Collects the tasks executed before the worker exits.  The fuel argument
bounds the iteration count; `shutdownDrain` supplies enough fuel. -/
def drainFuel : Nat → List Task → List Task
  | 0, _ => []
  | fuel + 1, q =>
    match workerStep true q with
    | (WorkerAct.run t, q2) => t :: drainFuel fuel q2
    | (_, _) => []

/-- The tasks a worker executes during shutdown, starting from queue `q`
with the stop flag set. -/
def shutdownDrain (q : List Task) : List Task :=
  drainFuel q.length q

end DiskannH

namespace DiskannH

/-- The body of one enqueued chunk task of `parallel_for`
(include/diskann_parallel.h, lines 160-167): the indices `[a, b)` run by
the worker, guarded by `if (chunk_start < chunk_end)` at the call site,
so an empty interval produces no task at all. -/
def clip (a b : Nat) : List Nat :=
  if a < b then List.range' a (b - a) else []

/-- Invocation trace of `parallel_for` from include/diskann_parallel.h
(lines 134-182), thread-pool tier: `start >= end` returns at once;
a range of more than 1000 with more than one pool thread is split into
`nt` chunks of size `ceil(range / nt)` starting at `start + t * chunk`
and clamped to `end`, one task per non-empty chunk; otherwise the range
runs sequentially in the caller.  The trace lists every index on which
`fn` is invoked, chunk by chunk in dispatch order. -/
def parallel_for (s e nt : Nat) : List Nat :=
  if e ≤ s then []
  else
    if 1000 < e - s ∧ 1 < nt then
      (List.range nt).flatMap (fun t =>
        clip (s + t * ((e - s + nt - 1) / nt))
          (min (s + t * ((e - s + nt - 1) / nt) + (e - s + nt - 1) / nt) e))
    else List.range' s (e - s)

/-- The successive chunk start positions `i = start, start + c, ...`
claimed while `i < end`, as produced both by the chunk loop of
`parallel_for_static` (lines 218-228) and by the atomic
`next_chunk.fetch_add(chunk_size)` cursor of `parallel_for_dynamic`
(lines 276-287): each fetch-and-add returns a distinct cursor value
`start + k * c`, and exactly the values below `end` are processed,
whatever the thread interleaving.  The `c = 0` guard is a totality
device only: the source makes no progress there (claim C6). -/
def chunkStarts (c s e : Nat) : List Nat :=
  if h : c = 0 ∨ e ≤ s then []
  else s :: chunkStarts c (s + c) e
termination_by e - s
decreasing_by
  simp only [not_or] at h
  omega

/-- Invocation trace of `parallel_for_static` from
include/diskann_parallel.h (lines 185-240), thread-pool tier: a chunk
size of 0 is replaced by the documented default
`max(1, range / (active_threads * 4))`; when the range exceeds the chunk
size and the pool has more than one thread, one task is enqueued per
chunk `[i, min(i + chunk, end))` for `i = start, start + chunk, ...`;
otherwise the loop runs sequentially. -/
def parallel_for_static (s e cs0 nt act : Nat) : List Nat :=
  if e ≤ s then []
  else
    if (if cs0 = 0 then max 1 ((e - s) / (act * 4)) else cs0) < e - s ∧ 1 < nt then
      (chunkStarts (if cs0 = 0 then max 1 ((e - s) / (act * 4)) else cs0) s e).flatMap
        (fun i =>
          List.range' i
            (min (i + (if cs0 = 0 then max 1 ((e - s) / (act * 4)) else cs0)) e - i))
    else List.range' s (e - s)

/-- Invocation trace of `parallel_for_dynamic` from
include/diskann_parallel.h (lines 243-300), thread-pool tier: when the
range exceeds the chunk size and the pool has more than one thread, the
workers repeatedly claim `[v, min(v + cs, end))` for cursor values `v`
via fetch-and-add until the claimed start reaches `end`; otherwise the
loop runs sequentially.  Requires `cs > 0`; see claim C6 for `cs = 0`. -/
def parallel_for_dynamic (s e cs nt : Nat) : List Nat :=
  if e ≤ s then []
  else
    if cs < e - s ∧ 1 < nt then
      (chunkStarts cs s e).flatMap (fun v => List.range' v (min (v + cs) e - v))
    else List.range' s (e - s)

/-- The value returned by the `k`-th `next_chunk.fetch_add(chunk_size)`
performed on the shared cursor of `parallel_for_dynamic` (line 278),
counting all workers together: the cursor starts at `start` and each
fetch-and-add advances it by `chunk_size`. -/
def dynCursor (s cs k : Nat) : Nat :=
  s + k * cs

end DiskannH

/-- Arithmetic fact behind `parallel_for`'s chunking: `nt` chunks of
size `ceil(r / nt)` cover a range of `r` items. -/
theorem le_mul_ceilDiv (r nt : Nat) (h : 0 < nt) : r ≤ nt * ((r + nt - 1) / nt) := by
  by_contra hlt
  push_neg at hlt
  have hstep : ((r + nt - 1) / nt + 1) * nt ≤ r + nt - 1 := by
    rw [Nat.succ_mul]
    have h2 : nt * ((r + nt - 1) / nt) + 1 ≤ r := hlt
    rw [Nat.mul_comm] at h2
    omega
  have := (Nat.le_div_iff_mul_le h).mpr hstep
  omega

/-- Tiling lemma for even-division chunking: the clamped chunks
`[s + t * c, min(s + t * c + c, e))`, for `t = 0, ..., n - 1`, enqueued
only when non-empty, concatenate to exactly `[s, e)` whenever the `n`
chunks of size `c` reach `e`. -/
theorem clip_chunks_cover (c : Nat) (hc : 0 < c) :
    ∀ (n s e : Nat), e ≤ s + n * c →
      (List.range n).flatMap
          (fun t => DiskannH.clip (s + t * c) (min (s + t * c + c) e))
        = List.range' s (e - s) := by
  intro n
  induction n with
  | zero =>
    intro s e he
    have h0 : e - s = 0 := by omega
    simp [h0]
  | succ n ih =>
    intro s e he
    rw [List.range_succ_eq_map, List.flatMap_cons, List.flatMap_map]
    have hfun :
        (fun t => DiskannH.clip (s + Nat.succ t * c) (min (s + Nat.succ t * c + c) e))
          = fun t => DiskannH.clip (s + c + t * c) (min (s + c + t * c + c) e) := by
      funext t
      have harg : s + Nat.succ t * c = s + c + t * c := by
        rw [Nat.succ_mul]
        omega
      rw [harg]
    rw [hfun]
    have he2 : e ≤ s + c + n * c := by
      rw [Nat.succ_mul] at he
      omega
    rw [ih (s + c) e he2]
    show DiskannH.clip (s + 0 * c) (min (s + 0 * c + c) e)
        ++ List.range' (s + c) (e - (s + c)) = List.range' s (e - s)
    have hs0 : s + 0 * c = s := by omega
    rw [hs0]
    simp only [DiskannH.clip]
    by_cases hse : e ≤ s
    · rw [if_neg (by omega : ¬ s < min (s + c) e)]
      have h1 : e - (s + c) = 0 := by omega
      have h2 : e - s = 0 := by omega
      simp [h1, h2]
    · push_neg at hse
      rw [if_pos (by omega : s < min (s + c) e)]
      by_cases hce : s + c ≤ e
      · have hmin : min (s + c) e - s = c := by omega
        rw [hmin]
        have happ := List.range'_append s c (e - s - c) 1
        simp only [Nat.one_mul] at happ
        have h2 : e - (s + c) = e - s - c := by omega
        have h3 : e - s - c + c = e - s := by omega
        rw [h2, happ, h3]
      · push_neg at hce
        have hmin : min (s + c) e - s = e - s := by omega
        rw [hmin]
        have h2 : e - (s + c) = 0 := by omega
        simp [h2]

/-- Tiling lemma for cursor-claimed chunking: the chunks
`[i, min(i + c, e))` for the claimed starts `i = s, s + c, ...` below
`e` concatenate to exactly `[s, e)`, for any positive chunk size. -/
theorem chunkStarts_cover (c : Nat) (hc : 0 < c) :
    ∀ (fuel s e : Nat), e - s ≤ fuel →
      (DiskannH.chunkStarts c s e).flatMap
          (fun i => List.range' i (min (i + c) e - i))
        = List.range' s (e - s) := by
  intro fuel
  induction fuel with
  | zero =>
    intro s e he
    have hes : e ≤ s := by omega
    rw [DiskannH.chunkStarts, dif_pos (Or.inr hes)]
    have h0 : e - s = 0 := by omega
    simp [h0]
  | succ n ih =>
    intro s e he
    rw [DiskannH.chunkStarts]
    by_cases hcond : c = 0 ∨ e ≤ s
    · rw [dif_pos hcond]
      have hes : e ≤ s := by
        rcases hcond with h0 | hes
        · omega
        · exact hes
      have h0 : e - s = 0 := by omega
      simp [h0]
    · rw [dif_neg hcond]
      push_neg at hcond
      rw [List.flatMap_cons]
      rw [ih (s + c) e (by omega)]
      by_cases hce : s + c ≤ e
      · have hmin : min (s + c) e - s = c := by omega
        rw [hmin]
        have happ := List.range'_append s c (e - s - c) 1
        simp only [Nat.one_mul] at happ
        have h2 : e - (s + c) = e - s - c := by omega
        have h3 : e - s - c + c = e - s := by omega
        rw [h2, happ, h3]
      · push_neg at hce
        have hmin : min (s + c) e - s = e - s := by omega
        rw [hmin]
        have h2 : e - (s + c) = 0 := by omega
        simp [h2]

/-- C1: For every start, end and pool/active thread count, and for every
positive chunk size where one applies, each of the three scheduling
policies of include/diskann_parallel.h invokes the body on exactly the
index sequence `[start, end)` — every index once, no duplicates, no
omissions, and `start >= end` yields zero invocations — so for bodies
writing to disjoint per-index slots the outcome equals a sequential
loop over the same range. -/
theorem scheduling_policies_visit_each_index_once
    (s e nt act cs0 cs : Nat) (hact : 0 < act) (hcs : 0 < cs) :
    DiskannH.parallel_for s e nt = List.range' s (e - s)
    ∧ DiskannH.parallel_for_static s e cs0 nt act = List.range' s (e - s)
    ∧ DiskannH.parallel_for_dynamic s e cs nt = List.range' s (e - s) := by
  refine ⟨?_, ?_, ?_⟩
  · rw [DiskannH.parallel_for]
    by_cases hse : e ≤ s
    · rw [if_pos hse]
      have h0 : e - s = 0 := by omega
      simp [h0]
    · rw [if_neg hse]
      by_cases hbig : 1000 < e - s ∧ 1 < nt
      · rw [if_pos hbig]
        have hnt : 0 < nt := by omega
        have hchunk : 0 < (e - s + nt - 1) / nt := by
          rw [Nat.lt_iff_add_one_le, Nat.zero_add]
          exact (Nat.le_div_iff_mul_le hnt).mpr (by omega)
        have hcover : e ≤ s + nt * ((e - s + nt - 1) / nt) := by
          have := le_mul_ceilDiv (e - s) nt hnt
          omega
        exact clip_chunks_cover ((e - s + nt - 1) / nt) hchunk nt s e hcover
      · rw [if_neg hbig]
  · rw [DiskannH.parallel_for_static]
    by_cases hse : e ≤ s
    · rw [if_pos hse]
      have h0 : e - s = 0 := by omega
      simp [h0]
    · rw [if_neg hse]
      by_cases hbig : (if cs0 = 0 then max 1 ((e - s) / (act * 4)) else cs0) < e - s ∧ 1 < nt
      · rw [if_pos hbig]
        have hchunk : 0 < (if cs0 = 0 then max 1 ((e - s) / (act * 4)) else cs0) := by
          by_cases h0 : cs0 = 0
          · simp [h0]
          · simp [h0]
            omega
        exact chunkStarts_cover _ hchunk (e - s) s e (Nat.le_refl _)
      · rw [if_neg hbig]
  · rw [DiskannH.parallel_for_dynamic]
    by_cases hse : e ≤ s
    · rw [if_pos hse]
      have h0 : e - s = 0 := by omega
      simp [h0]
    · rw [if_neg hse]
      by_cases hbig : cs < e - s ∧ 1 < nt
      · rw [if_pos hbig]
        exact chunkStarts_cover cs hcs (e - s) s e (Nat.le_refl _)
      · rw [if_neg hbig]

/-- Witness for C1 at a concrete instance: range `[0, 1100)` with a
4-thread pool, 2 active threads, defaulted static chunk size and
dynamic chunk size 7. -/
theorem scheduling_policies_visit_witness :
    DiskannH.parallel_for 0 1100 4 = List.range' 0 1100
    ∧ DiskannH.parallel_for_static 0 1100 0 4 2 = List.range' 0 1100
    ∧ DiskannH.parallel_for_dynamic 0 1100 7 4 = List.range' 0 1100 := by
  have := scheduling_policies_visit_each_index_once 0 1100 4 2 0 7
    (by decide) (by decide)
  simpa using this

/-- C6 (bug evidence): `parallel_for_dynamic(0, 10, fn, 0)` with a
multi-thread pool enters its worker branch (the guard
`end - start > chunk_size && num_threads > 1` holds for chunk size 0 on
a non-empty range), yet the shared cursor never advances: every
`fetch_add(0)` returns `start`, so the break condition
`chunk_start >= end` never fires and each worker loops forever.  The
zero chunk size is neither rejected nor defaulted on this entry point
(contrast `parallel_for_static`, which defaults it). -/
theorem dynamic_zero_chunk_cursor_never_reaches_end :
    (0 < 10 - 0 ∧ 1 < 2) ∧ ∀ k, DiskannH.dynCursor 0 0 k < 10 := by
  refine ⟨by decide, ?_⟩
  intro k
  simp [DiskannH.dynCursor]

namespace DiskannH

/-- Execution of one enqueued chunk body whose per-index function may
throw: the `for` loop of the task lambda (include/diskann_parallel.h,
lines 162-166) invokes `fn` index by index; a thrown exception aborts
the loop and is captured by the surrounding `std::packaged_task`, which
stores it in the future's shared state instead of letting it escape the
worker.  Returns the indices on which `fn` was invoked and the outcome
stored in the future. -/
def chunkRun (fn : Nat → Except String Unit) : List Nat → List Nat × Except String Unit
  | [] => ([], Except.ok ())
  | i :: rest =>
    match fn i with
    | Except.ok _ =>
      ((chunkRun fn rest).1.cons i, (chunkRun fn rest).2)
    | Except.error msg => ([i], Except.error msg)

/-- A per-index body that throws on index 0 and succeeds elsewhere. -/
def boomAtZero : Nat → Except String Unit :=
  fun i => if i = 0 then Except.error "boom" else Except.ok ()

/-- Outcome-aware embedding of `parallel_for` from
include/diskann_parallel.h (lines 134-182): the sequential tier runs
`fn` inline, so an exception there propagates to the caller; the
thread-pool tier collects one future per chunk but synchronizes with
`future.wait()` (lines 172-174), which blocks without rethrowing, and
then returns normally — the outcomes stored in the futures are
discarded.  The result pairs the invoked indices with what the caller
observes. -/
def parallel_for_outcome (s e nt : Nat) (fn : Nat → Except String Unit) :
    List Nat × Except String Unit :=
  if e ≤ s then ([], Except.ok ())
  else
    if 1000 < e - s ∧ 1 < nt then
      (((List.range nt).map (fun t =>
          chunkRun fn
            (clip (s + t * ((e - s + nt - 1) / nt))
              (min (s + t * ((e - s + nt - 1) / nt) + (e - s + nt - 1) / nt) e)))).flatMap
        (fun r => r.1),
        Except.ok ())
    else chunkRun fn (List.range' s (e - s))

end DiskannH

set_option maxRecDepth 100000 in
/-- C3 (bug evidence): with a 2-thread pool on `[0, 1001)` and a body
that throws at index 0, the exception is indeed captured in the first
chunk's future (last conjunct) and the worker goes on to run the second
chunk (index 501 is still invoked exactly once), but `parallel_for`
returns normally (`ok`) to its caller while indices 1..500 of the
failing chunk were never invoked: the caller gets a silently truncated
result, not the propagated error. -/
theorem parallel_for_wait_swallows_task_exception :
    (DiskannH.parallel_for_outcome 0 1001 2 DiskannH.boomAtZero).2 = Except.ok ()
    ∧ (DiskannH.parallel_for_outcome 0 1001 2 DiskannH.boomAtZero).1.count 1 = 0
    ∧ (DiskannH.parallel_for_outcome 0 1001 2 DiskannH.boomAtZero).1.count 501 = 1
    ∧ (DiskannH.chunkRun DiskannH.boomAtZero (DiskannH.clip 0 501)).2
        = Except.error "boom" := by
  refine ⟨rfl, by decide, by decide, rfl⟩

namespace UtilsH

/-- Local fold of one partition, as computed inside the future lambda of
`parallel_reduce` (include/parallel_utils.h, lines 223-231): starting
from `identity`, apply `reduce_op(acc, transform_op(i))` for each index
of `[s, s + len)` in order. -/
def localFold {T : Type} (identity : T) (rop : T → T → T) (top : Nat → T)
    (s len : Nat) : T :=
  (List.range' s len).foldl (fun acc i => rop acc (top i)) identity

/-- The partition bounds produced by the dispatch loop of
`parallel_reduce` (include/parallel_utils.h, lines 215-234): starting
from `cur`, partition `t` spans `chunk` indices plus one extra while
`t < rem`, and the next partition starts where this one ends.  The last
argument counts the partitions still to emit. -/
def parts (chunk rem : Nat) : Nat → Nat → Nat → List (Nat × Nat)
  | _, _, 0 => []
  | t, cur, n + 1 =>
    (cur, cur + chunk + if t < rem then 1 else 0)
      :: parts chunk rem (t + 1) (cur + chunk + if t < rem then 1 else 0) n

/-- Number of indices covered by `parts chunk rem t _ n`. -/
def partsLen (chunk rem : Nat) : Nat → Nat → Nat
  | _, 0 => 0
  | t, n + 1 => (chunk + if t < rem then 1 else 0) + partsLen chunk rem (t + 1) n

/-- Embedding of `parallel_reduce` from include/parallel_utils.h
(lines 173-245), standard-thread tier, after the non-positive
`num_threads` argument has been defaulted to the positive hardware
count: an empty range returns `identity`; a range smaller than the
thread count (or a single thread) folds sequentially; otherwise the
range is split into `nt` partitions of `total / nt` indices with the
remainder spread over the first partitions, each partition computes its
local fold in its future, and the partials are combined with
`reduce_op` in ascending partition order starting from `identity`
(lines 236-243). -/
def parallel_reduce {T : Type} (s e : Nat) (identity : T)
    (rop : T → T → T) (top : Nat → T) (nt : Nat) : T :=
  if e - s = 0 then identity
  else
    if e - s < nt ∨ nt = 1 then
      (List.range' s (e - s)).foldl (fun acc i => rop acc (top i)) identity
    else
      ((parts ((e - s) / nt) ((e - s) % nt) 0 s nt).map
          (fun p => localFold identity rop top p.1 (p.2 - p.1))).foldl rop identity

/-- Closed form of the start of partition `t` under static even
division of a range starting at `s`: `t` whole chunks plus one carried
remainder index for each earlier remainder partition. -/
def pBound (s chunk rem t : Nat) : Nat :=
  s + t * chunk + min t rem

/-- Follows the spec's words (one definition per its description, to be
compared with the implementation): the one-per-partition partial
results of static partitioning, listed in ascending partition-index
order. -/
def specPartials {T : Type} (identity : T) (rop : T → T → T) (top : Nat → T)
    (s chunk rem nt : Nat) : List T :=
  (List.range nt).map (fun t =>
    localFold identity rop top (pBound s chunk rem t)
      (pBound s chunk rem (t + 1) - pBound s chunk rem t))

/-- Follows the spec's words: combining the one-per-partition partials
strictly in ascending partition-index order with `reduce_op`, starting
from `identity` — the in-order fold of the partition-local folds. -/
def specCombineInOrder {T : Type} (identity : T) (rop : T → T → T) (top : Nat → T)
    (s chunk rem nt : Nat) : T :=
  (specPartials identity rop top s chunk rem nt).foldl rop identity

end UtilsH

/-- The next-partition step of static even division: the end of
partition `t` is the start of partition `t + 1`. -/
theorem pBound_succ (s chunk rem t : Nat) :
    UtilsH.pBound s chunk rem (t + 1)
      = UtilsH.pBound s chunk rem t + chunk + (if t < rem then 1 else 0) := by
  simp only [UtilsH.pBound, Nat.succ_mul]
  by_cases h : t < rem
  · simp only [if_pos h]
    omega
  · simp only [if_neg h]
    omega

/-- The dispatch loop of `parallel_reduce` emits exactly the partitions
of static even division: starting at partition `t` with the matching
cursor position, the emitted bound pairs are
`(pBound t', pBound (t'+1))` for `t' = t, ..., t + n - 1`. -/
theorem parts_eq_pBound (s chunk rem : Nat) :
    ∀ (n t : Nat), UtilsH.parts chunk rem t (UtilsH.pBound s chunk rem t) n
      = (List.range' t n).map
          (fun u => (UtilsH.pBound s chunk rem u, UtilsH.pBound s chunk rem (u + 1))) := by
  intro n
  induction n with
  | zero =>
    intro t
    simp [UtilsH.parts]
  | succ n ih =>
    intro t
    rw [List.range'_succ, List.map_cons]
    show (UtilsH.pBound s chunk rem t,
        UtilsH.pBound s chunk rem t + chunk + if t < rem then 1 else 0)
        :: UtilsH.parts chunk rem (t + 1)
          (UtilsH.pBound s chunk rem t + chunk + if t < rem then 1 else 0) n
      = (UtilsH.pBound s chunk rem t, UtilsH.pBound s chunk rem (t + 1))
        :: (List.range' (t + 1) n).map
          (fun u => (UtilsH.pBound s chunk rem u, UtilsH.pBound s chunk rem (u + 1)))
    rw [← pBound_succ, ih (t + 1)]

namespace ParallelH

/-- One execution of the loop body passed to `parallel_for` by
`parallel_reduce` of include/parallel_framework.h (lines 355-358):
index `i`, running on the thread whose runtime id is `σ i`, updates
`partial_results[tid]` with `tid = σ i % num_threads` via
`reduce_op(partial_results[tid], transform_op(i))`.  The slot vector is
modelled as a function from slot index to value. -/
def slotStep {T : Type} (top : Nat → T) (rop : T → T → T) (nt : Nat)
    (σ : Nat → Nat) (sl : Nat → T) (i : Nat) : Nat → T :=
  fun j => if j = σ i % nt then rop (sl j) (top i) else sl j

/-- Embedding of `parallel_reduce` from include/parallel_framework.h
(lines 341-367), after the non-positive `num_threads` argument has been
defaulted: an empty range returns `identity`; otherwise every index
updates the slot keyed by the runtime id of the thread that executes it
(`σ`), the embedding serializing the read-modify-write updates in
ascending index order, and the slots are then combined with `reduce_op`
in ascending slot order (lines 360-366).  Note the slots are
per-thread, not per-partition: which slot receives which indices
depends on the runtime thread assignment `σ`. -/
def parallel_reduce {T : Type} (s e : Nat) (identity : T) (top : Nat → T)
    (rop : T → T → T) (nt : Nat) (σ : Nat → Nat) : T :=
  if e - s = 0 then identity
  else
    (List.range nt).foldl
      (fun acc j =>
        rop acc
          ((List.range' s (e - s)).foldl (slotStep top rop nt σ)
            (fun _ => identity) j))
      identity

/-- A runtime thread assignment in which the async thread executing
partition `[0, 2)` has an odd runtime id and the one executing `[2, 4)`
an even one — realizable, since `get_thread_num` hands out ids from a
global counter whose prior value is arbitrary. -/
def swapAssign : Nat → Nat :=
  fun i => if i < 2 then 1 else 0

end ParallelH

/-- Folding addition of a mapped value from an accumulator equals the
accumulator plus the sum of the mapped list. -/
theorem foldl_add_eq {α : Type} (f : α → Nat) :
    ∀ (l : List α) (a : Nat),
      l.foldl (fun acc x => acc + f x) a = a + (l.map f).sum := by
  intro l
  induction l with
  | nil =>
    intro a
    simp
  | cons x xs ih =>
    intro a
    rw [List.foldl_cons, ih, List.map_cons, List.sum_cons]
    omega

/-- Folding plain addition equals adding the list sum. -/
theorem foldl_add_self :
    ∀ (l : List Nat) (a : Nat), l.foldl (fun u v => u + v) a = a + l.sum := by
  intro l
  induction l with
  | nil =>
    intro a
    simp
  | cons x xs ih =>
    intro a
    rw [List.foldl_cons, ih, List.sum_cons]
    omega

/-- Summing a function mapped over `List.range` is the `Finset.range`
sum. -/
theorem list_range_map_sum (f : Nat → Nat) (n : Nat) :
    ((List.range n).map f).sum = ∑ j ∈ Finset.range n, f j := by
  induction n with
  | zero => simp
  | succ n ih =>
    rw [List.range_succ, Finset.sum_range_succ, List.map_append,
      List.sum_append, ih]
    simp

/-- Sums distribute over concatenation of per-partition blocks. -/
theorem sum_map_flatMap {α β : Type} (f : β → Nat) (g : α → List β) :
    ∀ ps : List α,
      ((ps.flatMap g).map f).sum = (ps.map (fun p => ((g p).map f).sum)).sum := by
  intro ps
  induction ps with
  | nil => simp
  | cons p rest ih =>
    rw [List.flatMap_cons, List.map_append, List.sum_append, ih,
      List.map_cons, List.sum_cons]

/-- Bumping one slot of a vector bumps its total by the added value. -/
theorem finset_update_sum (f : Nat → Nat) (nt j0 add : Nat) (h : j0 < nt) :
    (∑ j ∈ Finset.range nt, if j = j0 then f j + add else f j)
      = (∑ j ∈ Finset.range nt, f j) + add := by
  have hcongr : ∀ j ∈ Finset.range nt,
      (if j = j0 then f j + add else f j) = f j + (if j = j0 then add else 0) := by
    intro j _
    by_cases hj : j = j0
    · simp [hj]
    · simp [hj]
  rw [Finset.sum_congr rfl hcongr, Finset.sum_add_distrib]
  congr 1
  rw [Finset.sum_ite_eq' (Finset.range nt) j0 (fun _ => add)]
  simp [Finset.mem_range, h]

/-- Slot-sum invariant of the framework reduce: after processing any
index list through the per-thread slots, the total over all slots has
grown by the sum of the transformed indices, whatever the thread
assignment. -/
theorem slots_sum (top : Nat → Nat) (nt : Nat) (σ : Nat → Nat) (hnt : 0 < nt) :
    ∀ (l : List Nat) (sl : Nat → Nat),
      (∑ j ∈ Finset.range nt,
          l.foldl (ParallelH.slotStep top (fun a b => a + b) nt σ) sl j)
        = (∑ j ∈ Finset.range nt, sl j) + (l.map top).sum := by
  intro l
  induction l with
  | nil =>
    intro sl
    simp
  | cons i rest ih =>
    intro sl
    rw [List.foldl_cons, ih]
    have hupd : (∑ j ∈ Finset.range nt,
        ParallelH.slotStep top (fun a b => a + b) nt σ sl i j)
        = (∑ j ∈ Finset.range nt, sl j) + top i := by
      have hnorm : ∀ j ∈ Finset.range nt,
          ParallelH.slotStep top (fun a b => a + b) nt σ sl i j
            = if j = σ i % nt then sl j + top i else sl j := by
        intro j _
        rfl
      rw [Finset.sum_congr rfl hnorm]
      exact finset_update_sum sl nt (σ i % nt) (top i) (Nat.mod_lt _ hnt)
    rw [hupd, List.map_cons, List.sum_cons]
    omega

/-- Concatenating the ranges and appending blocks: [cur, cur + w) then
[cur + w, cur + w + len) tile [cur, cur + w + len). -/
theorem range'_tile (cur w len : Nat) :
    List.range' cur (cur + w - cur) ++ List.range' (cur + w) len
      = List.range' cur (w + len) := by
  have h1 : cur + w - cur = w := by omega
  rw [h1]
  have happ := List.range'_append cur w len 1
  simp only [Nat.one_mul] at happ
  rw [happ, Nat.add_comm len w]

/-- The partitions emitted by the dispatch loop tile a contiguous index
interval: flattening their half-open ranges yields exactly
`[cur, cur + partsLen)`. -/
theorem parts_flatten (chunk rem : Nat) :
    ∀ (n t cur : Nat),
      (UtilsH.parts chunk rem t cur n).flatMap (fun p => List.range' p.1 (p.2 - p.1))
        = List.range' cur (UtilsH.partsLen chunk rem t n) := by
  intro n
  induction n with
  | zero =>
    intro t cur
    simp [UtilsH.parts, UtilsH.partsLen]
  | succ n ih =>
    intro t cur
    show ((cur, cur + chunk + if t < rem then 1 else 0)
        :: UtilsH.parts chunk rem (t + 1)
          (cur + chunk + if t < rem then 1 else 0) n).flatMap
          (fun p => List.range' p.1 (p.2 - p.1))
      = List.range' cur
          ((chunk + if t < rem then 1 else 0) + UtilsH.partsLen chunk rem (t + 1) n)
    rw [List.flatMap_cons, ih (t + 1) (cur + chunk + if t < rem then 1 else 0)]
    show List.range' cur (cur + chunk + (if t < rem then 1 else 0) - cur)
        ++ List.range' (cur + chunk + if t < rem then 1 else 0)
          (UtilsH.partsLen chunk rem (t + 1) n)
      = List.range' cur
          ((chunk + if t < rem then 1 else 0) + UtilsH.partsLen chunk rem (t + 1) n)
    rw [Nat.add_assoc cur chunk]
    exact range'_tile cur (chunk + if t < rem then 1 else 0)
      (UtilsH.partsLen chunk rem (t + 1) n)

/-- Closed form of the index count covered by `n` partitions from
partition `t` on: `n` whole chunks plus the remainder indices carried
by partitions `t, ..., t + n - 1` below `rem`. -/
theorem partsLen_eq (chunk rem : Nat) :
    ∀ (n t : Nat), UtilsH.partsLen chunk rem t n
      = n * chunk + (min rem (t + n) - min rem t) := by
  intro n
  induction n with
  | zero =>
    intro t
    simp [UtilsH.partsLen]
  | succ n ih =>
    intro t
    show (chunk + if t < rem then 1 else 0) + UtilsH.partsLen chunk rem (t + 1) n
      = (n + 1) * chunk + (min rem (t + (n + 1)) - min rem t)
    rw [ih (t + 1), Nat.succ_mul]
    by_cases h : t < rem
    · simp only [if_pos h]
      omega
    · simp only [if_neg h]
      omega

/-- The parallel tier of the utils reduce with addition from 0 computes
the plain sum of the transformed range, for any thread count the
dispatcher can be handed. -/
theorem utils_reduce_eq_sum (s e nt : Nat) (top : Nat → Nat) (hnt : 1 ≤ nt) :
    UtilsH.parallel_reduce s e 0 (fun a b => a + b) top nt
      = ((List.range' s (e - s)).map top).sum := by
  simp only [UtilsH.parallel_reduce]
  by_cases h0 : e - s = 0
  · rw [if_pos h0]
    simp [h0]
  · rw [if_neg h0]
    by_cases hseq : e - s < nt ∨ nt = 1
    · rw [if_pos hseq]
      rw [foldl_add_eq top (List.range' s (e - s)) 0]
      omega
    · rw [if_neg hseq]
      push_neg at hseq
      have hpart : ∀ p : Nat × Nat,
          UtilsH.localFold 0 (fun a b => a + b) top p.1 (p.2 - p.1)
            = ((List.range' p.1 (p.2 - p.1)).map top).sum := by
        intro p
        simp only [UtilsH.localFold]
        rw [foldl_add_eq top (List.range' p.1 (p.2 - p.1)) 0]
        omega
      rw [List.map_congr_left
        (fun p _ => hpart p)]
      rw [foldl_add_self, Nat.zero_add]
      rw [← sum_map_flatMap top (fun p => List.range' p.1 (p.2 - p.1))
        (UtilsH.parts ((e - s) / nt) ((e - s) % nt) 0 s nt)]
      rw [parts_flatten ((e - s) / nt) ((e - s) % nt) nt 0 s]
      rw [partsLen_eq ((e - s) / nt) ((e - s) % nt) nt 0]
      have hlen : nt * ((e - s) / nt) + (min ((e - s) % nt) (0 + nt) - min ((e - s) % nt) 0)
          = e - s := by
        have hmod : (e - s) % nt < nt := Nat.mod_lt _ (by omega)
        have hdm := Nat.div_add_mod (e - s) nt
        omega
      rw [hlen]

/-- The framework reduce with addition from 0 also computes the plain
sum of the transformed range, for every runtime thread assignment: with
a commutative combiner the per-thread slot keying is harmless. -/
theorem framework_reduce_eq_sum (s e nt : Nat) (top : Nat → Nat)
    (σ : Nat → Nat) (hnt : 1 ≤ nt) :
    ParallelH.parallel_reduce s e 0 top (fun a b => a + b) nt σ
      = ((List.range' s (e - s)).map top).sum := by
  simp only [ParallelH.parallel_reduce]
  by_cases h0 : e - s = 0
  · rw [if_pos h0]
    simp [h0]
  · rw [if_neg h0]
    rw [foldl_add_eq
      (fun j => (List.range' s (e - s)).foldl
        (ParallelH.slotStep top (fun a b => a + b) nt σ) (fun _ => 0) j)
      (List.range nt) 0]
    rw [Nat.zero_add]
    rw [list_range_map_sum]
    rw [slots_sum top nt σ (by omega) (List.range' s (e - s)) (fun _ => 0)]
    simp

/-- Twice the sum of `0 + 1 + ... + (n-1)`, Gauss form without
division. -/
theorem twice_sum_range (n : Nat) : 2 * (List.range n).sum = n * (n - 1) := by
  induction n with
  | zero => simp
  | succ n ih =>
    rw [List.range_succ, List.sum_append]
    have hexp : (n + 1) * (n + 1 - 1) = n * (n - 1) + 2 * n := by
      cases n with
      | zero => rfl
      | succ m =>
        have h1 : m + 1 + 1 - 1 = m + 1 := rfl
        have h2 : m + 1 - 1 = m := rfl
        rw [h1, h2]
        ring
    rw [hexp]
    simp only [List.sum_cons, List.sum_nil]
    omega

namespace DiskannH

/-- The chunk bounds produced by the dispatch loop of the iterator
`parallel_reduce` of include/diskann_parallel.h (lines 316-329): the
iterator `it` starts at the first element; for each `t` below
`num_threads` one future spans `[it, it + chunk)` — except the last
(`t == num_threads - 1`), which spans up to `last` — and `it` advances
to the chunk's end.  Positions stand in for iterators, `d` for the
distance from `first` to `last`. -/
def iterParts (chunk nt d : Nat) : Nat → Nat → Nat → List (Nat × Nat)
  | _, _, 0 => []
  | t, it, n + 1 =>
    (it, if t = nt - 1 then d else it + chunk)
      :: iterParts chunk nt d (t + 1) (if t = nt - 1 then d else it + chunk) n

/-- Embedding of the iterator `parallel_reduce` from
include/diskann_parallel.h (lines 303-342), thread-pool tier: a
distance of more than 1000 with more than one pool thread splits the
sequence into `num_threads` chunks of `distance / num_threads` elements
(the last chunk clamped to `last`), each future returns
`std::accumulate(chunk_begin, chunk_end, init, op)`, and the results
are combined by `result = op(result, future.get())` in the order the
futures were pushed — ascending chunk order, starting from `init`
(lines 331-336); otherwise it accumulates sequentially.  Element `i`
of the sequence is `elem i`. -/
def parallel_reduce {T : Type} (d : Nat) (elem : Nat → T) (init : T)
    (op : T → T → T) (nt : Nat) : T :=
  if 1000 < d ∧ 1 < nt then
    ((iterParts (d / nt) nt d 0 0 nt).map
        (fun p => (List.range' p.1 (p.2 - p.1)).foldl (fun acc i => op acc (elem i)) init)).foldl
      op init
  else
    (List.range' 0 d).foldl (fun acc i => op acc (elem i)) init

/-- Follows the spec's words for the iterator version: the
one-per-partition partials — each an accumulate from `init` over its
chunk — listed in ascending partition-index order; partition `t` spans
`[t * chunk, (t + 1) * chunk)`, the last one up to `d`. -/
def dSpecPartials {T : Type} (init : T) (op : T → T → T) (elem : Nat → T)
    (chunk nt d : Nat) : List T :=
  (List.range nt).map (fun t =>
    (List.range' (t * chunk)
        ((if t = nt - 1 then d else (t + 1) * chunk) - t * chunk)).foldl
      (fun acc i => op acc (elem i)) init)

/-- Follows the spec's words: the in-order fold of those
one-per-partition partials by `op` from `init`, in ascending
partition-index order. -/
def dSpecCombineInOrder {T : Type} (init : T) (op : T → T → T) (elem : Nat → T)
    (chunk nt d : Nat) : T :=
  (dSpecPartials init op elem chunk nt d).foldl op init

end DiskannH

/-- The iterator loop's cursor stays at `t * chunk`: the chunks emitted
from partition `t` on are exactly the closed-form partitions, as long
as no more than the remaining partitions are requested. -/
theorem iterParts_eq_closed (chunk nt d : Nat) :
    ∀ (n t : Nat), t + n ≤ nt →
      DiskannH.iterParts chunk nt d t (t * chunk) n
        = (List.range' t n).map
            (fun u => (u * chunk, if u = nt - 1 then d else (u + 1) * chunk)) := by
  intro n
  induction n with
  | zero =>
    intro t _
    simp [DiskannH.iterParts]
  | succ n ih =>
    intro t hle
    by_cases ht : t = nt - 1
    · have hn0 : n = 0 := by omega
      subst hn0
      show (t * chunk, if t = nt - 1 then d else t * chunk + chunk)
          :: DiskannH.iterParts chunk nt d (t + 1)
            (if t = nt - 1 then d else t * chunk + chunk) 0
        = [(t * chunk, if t = nt - 1 then d else (t + 1) * chunk)]
      rw [if_pos ht, if_pos ht]
      rfl
    · show (t * chunk, if t = nt - 1 then d else t * chunk + chunk)
          :: DiskannH.iterParts chunk nt d (t + 1)
            (if t = nt - 1 then d else t * chunk + chunk) n
        = (t * chunk, if t = nt - 1 then d else (t + 1) * chunk)
          :: (List.range' (t + 1) n).map
            (fun u => (u * chunk, if u = nt - 1 then d else (u + 1) * chunk))
      rw [if_neg ht, if_neg ht]
      have hsucc : t * chunk + chunk = (t + 1) * chunk := by
        rw [Nat.succ_mul]
      rw [hsucc, ih (t + 1) (by omega)]

/-- C4 (counterexample): the claim fails for the `parallel_reduce` of
include/parallel_framework.h.  On `[0, 4)` with two threads, identity
`[]`, transform `i ↦ [i]` and the associative (non-commutative)
combiner `++`, a realizable runtime thread assignment in which the
thread running partition `[0, 2)` has an odd id and the one running
`[2, 4)` an even id produces `[2, 3, 0, 1]`, not the in-order fold
`[0, 1, 2, 3]` of the partition-local folds: its partials are keyed by
thread id, not partition index. -/
theorem framework_reduce_breaks_partition_order :
    ParallelH.parallel_reduce 0 4 ([] : List Nat) (fun i => [i])
        (fun a b => a ++ b) 2 ParallelH.swapAssign
      ≠ UtilsH.specCombineInOrder ([] : List Nat) (fun a b => a ++ b)
        (fun i => [i]) 0 2 0 2 := by
  decide

/-- C4 (amended): the `parallel_reduce` of include/parallel_utils.h
does satisfy the claim: whenever its parallel tier runs (at least two
threads, range at least the thread count), the result is exactly the
in-order fold by `reduce_op`, from `identity`, of the one-per-partition
local folds taken in ascending partition-index order — hence repeatable
for a fixed thread count, with no dependence on completion order.  So
does the iterator `parallel_reduce` of include/diskann_parallel.h in
its parallel tier (distance above 1000): its one-per-chunk partials —
each an accumulate from `init` — are combined in ascending chunk
order, yielding the in-order fold of the partition-local folds.  Only
the thread-id-keyed version of include/parallel_framework.h fails the
claim (see the counterexample). -/
theorem utils_reduce_combines_in_ascending_partition_order {T : Type}
    (s e nt d : Nat) (identity : T) (rop : T → T → T) (top : Nat → T)
    (initD : T) (opD : T → T → T) (elemD : Nat → T)
    (h2 : 2 ≤ nt) (hw : nt ≤ e - s) (hd : 1000 < d) :
    UtilsH.parallel_reduce s e identity rop top nt
      = UtilsH.specCombineInOrder identity rop top s ((e - s) / nt) ((e - s) % nt) nt
    ∧ DiskannH.parallel_reduce d elemD initD opD nt
      = DiskannH.dSpecCombineInOrder initD opD elemD (d / nt) nt d := by
  constructor
  · simp only [UtilsH.parallel_reduce]
    rw [if_neg (by omega : ¬ e - s = 0)]
    rw [if_neg (by omega : ¬ (e - s < nt ∨ nt = 1))]
    have hparts := parts_eq_pBound s ((e - s) / nt) ((e - s) % nt) nt 0
    have hs0 : UtilsH.pBound s ((e - s) / nt) ((e - s) % nt) 0 = s := by
      simp [UtilsH.pBound]
    rw [hs0] at hparts
    rw [hparts, List.map_map]
    simp only [UtilsH.specCombineInOrder, UtilsH.specPartials, List.range_eq_range',
      Function.comp]
    congr 1
  · simp only [DiskannH.parallel_reduce]
    rw [if_pos ⟨hd, by omega⟩]
    have hparts := iterParts_eq_closed (d / nt) nt d nt 0 (by omega)
    rw [Nat.zero_mul] at hparts
    rw [hparts, List.map_map]
    simp only [DiskannH.dSpecCombineInOrder, DiskannH.dSpecPartials,
      List.range_eq_range', Function.comp]
    congr 1

/-- Witness for the amended C4: the utils version at `[0, 10)` with two
threads and the diskann iterator version at distance 1004 with two
threads, both over natural-number addition. -/
theorem utils_reduce_combines_witness :
    UtilsH.parallel_reduce 0 10 0 (fun a b => a + b) (fun i => i) 2
        = UtilsH.specCombineInOrder 0 (fun a b => a + b) (fun i => i) 0 5 0 2
    ∧ DiskannH.parallel_reduce 1004 (fun i => i) 0 (fun a b => a + b) 2
        = DiskannH.dSpecCombineInOrder 0 (fun a b => a + b) (fun i => i) 502 2 1004 :=
  utils_reduce_combines_in_ascending_partition_order 0 10 2 1004 0
    (fun a b => a + b) (fun i => i) 0 (fun a b => a + b) (fun i => i)
    (by decide) (by decide) (by decide)

/-- C5: for any positive thread count, any runtime thread assignment
and any identity, reduce and transform operators:
`parallel_reduce(0, N, 0, identity transform, plus)` returns exactly
`N * (N - 1) / 2` for `N` in 0, 1, 2, 1000, 1000000 — in both the
parallel_utils.h version and the parallel_framework.h version — while
`N = 0` returns the identity element unchanged and `N = 1` returns
`reduce_op(identity, transform_op(0))`, which for plus from 0 is
`transform_op(0)`. -/
theorem parallel_reduce_gauss_values (nt : Nat) (σ : Nat → Nat) (ident : Nat)
    (rop2 : Nat → Nat → Nat) (top2 : Nat → Nat) (hnt : 1 ≤ nt) :
    UtilsH.parallel_reduce 0 0 0 (fun a b => a + b) (fun i => i) nt = 0
    ∧ UtilsH.parallel_reduce 0 1 0 (fun a b => a + b) (fun i => i) nt = 0
    ∧ UtilsH.parallel_reduce 0 2 0 (fun a b => a + b) (fun i => i) nt = 1
    ∧ UtilsH.parallel_reduce 0 1000 0 (fun a b => a + b) (fun i => i) nt = 499500
    ∧ UtilsH.parallel_reduce 0 1000000 0 (fun a b => a + b) (fun i => i) nt
        = 499999500000
    ∧ ParallelH.parallel_reduce 0 1000 0 (fun i => i) (fun a b => a + b) nt σ
        = 499500
    ∧ UtilsH.parallel_reduce 0 0 ident rop2 top2 nt = ident
    ∧ UtilsH.parallel_reduce 0 1 ident rop2 top2 nt = rop2 ident (top2 0) := by
  have hsum : ∀ N : Nat, ((List.range' 0 (N - 0)).map (fun i => i)).sum
      = (List.range N).sum := by
    intro N
    rw [List.map_id', Nat.sub_zero, ← List.range_eq_range']
  refine ⟨?_, ?_, ?_, ?_, ?_, ?_, ?_, ?_⟩
  · rw [utils_reduce_eq_sum 0 0 nt (fun i => i) hnt, hsum 0]
    rfl
  · rw [utils_reduce_eq_sum 0 1 nt (fun i => i) hnt, hsum 1]
    rfl
  · rw [utils_reduce_eq_sum 0 2 nt (fun i => i) hnt, hsum 2]
    rfl
  · rw [utils_reduce_eq_sum 0 1000 nt (fun i => i) hnt, hsum 1000]
    have := twice_sum_range 1000
    omega
  · rw [utils_reduce_eq_sum 0 1000000 nt (fun i => i) hnt, hsum 1000000]
    have := twice_sum_range 1000000
    omega
  · rw [framework_reduce_eq_sum 0 1000 nt (fun i => i) σ hnt, hsum 1000]
    have := twice_sum_range 1000
    omega
  · simp [UtilsH.parallel_reduce]
  · simp only [UtilsH.parallel_reduce]
    rw [if_neg (by omega : ¬ (1 : Nat) - 0 = 0)]
    rw [if_pos (by omega : (1 : Nat) - 0 < nt ∨ nt = 1)]
    rfl

/-- Witness for C5 with three threads and the identity thread
assignment. -/
theorem parallel_reduce_gauss_witness :
    UtilsH.parallel_reduce 0 0 0 (fun a b => a + b) (fun i => i) 3 = 0
    ∧ UtilsH.parallel_reduce 0 1 0 (fun a b => a + b) (fun i => i) 3 = 0
    ∧ UtilsH.parallel_reduce 0 2 0 (fun a b => a + b) (fun i => i) 3 = 1
    ∧ UtilsH.parallel_reduce 0 1000 0 (fun a b => a + b) (fun i => i) 3 = 499500
    ∧ UtilsH.parallel_reduce 0 1000000 0 (fun a b => a + b) (fun i => i) 3
        = 499999500000
    ∧ ParallelH.parallel_reduce 0 1000 0 (fun i => i) (fun a b => a + b) 3
        (fun t => t) = 499500
    ∧ UtilsH.parallel_reduce 0 0 7 (fun a b => a * b) (fun i => i + 2) 3 = 7
    ∧ UtilsH.parallel_reduce 0 1 7 (fun a b => a * b) (fun i => i + 2) 3
        = 7 * (0 + 2) :=
  parallel_reduce_gauss_values 3 (fun t => t) 7 (fun a b => a * b)
    (fun i => i + 2) (by decide)

/-- State of the `barrier` of include/parallel_framework.h (lines
120-143): the live countdown `count` and the `generation` counter;
`total` is the immutable participant count fixed at construction. -/
structure BarrierState where
  count : Nat
  generation : Nat
deriving DecidableEq

namespace ParallelH

/-- Embedding of `barrier::wait` (include/parallel_framework.h, lines
131-142), one arrival under the lock: read the current generation,
decrement `count`; if it reached zero, increment the generation, reset
`count` to `total` and notify all; otherwise block on the predicate
`generation > gen`.  Returns the state after the arrival and, for a
blocked arrival, the generation value it waits to be exceeded. -/
def barrier_wait (total : Nat) (st : BarrierState) : BarrierState × Option Nat :=
  if st.count - 1 = 0 then
    ({ count := total, generation := st.generation + 1 }, none)
  else
    ({ count := st.count - 1, generation := st.generation }, some st.generation)

/-- The condition-variable predicate a blocked waiter sleeps on:
`generation > gen` for the generation `gen` it observed on entry. -/
def released (st : BarrierState) (gen : Nat) : Bool :=
  decide (gen < st.generation)

/-- The barrier state after `k` successive arrivals. -/
def arriveMany (total : Nat) : Nat → BarrierState → BarrierState
  | 0, st => st
  | k + 1, st => arriveMany total k (barrier_wait total st).1

end ParallelH

/-- Arrivals can be peeled off the back as well as the front. -/
theorem arriveMany_succ_last (total : Nat) :
    ∀ (k : Nat) (st : BarrierState),
      ParallelH.arriveMany total (k + 1) st
        = (ParallelH.barrier_wait total (ParallelH.arriveMany total k st)).1 := by
  intro k
  induction k with
  | zero =>
    intro st
    rfl
  | succ k ih =>
    intro st
    show ParallelH.arriveMany total (k + 1) (ParallelH.barrier_wait total st).1
      = (ParallelH.barrier_wait total
          (ParallelH.arriveMany total k (ParallelH.barrier_wait total st).1)).1
    exact ih (ParallelH.barrier_wait total st).1

/-- While fewer arrivals than the live count have happened, each one
just decrements the counter and leaves the generation alone. -/
theorem arrive_below (n : Nat) :
    ∀ (k c g : Nat), k < c →
      ParallelH.arriveMany n k { count := c, generation := g }
        = { count := c - k, generation := g } := by
  intro k
  induction k with
  | zero =>
    intro c g _
    simp [ParallelH.arriveMany]
  | succ k ih =>
    intro c g hk
    show ParallelH.arriveMany n k
        (ParallelH.barrier_wait n { count := c, generation := g }).1
      = { count := c - (k + 1), generation := g }
    have hw : (ParallelH.barrier_wait n { count := c, generation := g }).1
        = { count := c - 1, generation := g } := by
      rw [ParallelH.barrier_wait, if_neg (by simp; omega : ¬ ({ count := c, generation := g } : BarrierState).count - 1 = 0)]
    rw [hw, ih (c - 1) g (by omega)]
    have : c - 1 - k = c - (k + 1) := by omega
    rw [this]

/-- A full round of `n` arrivals on a fresh barrier bumps the
generation and restores the count. -/
theorem barrier_full_round (n : Nat) (hn : 0 < n) (g : Nat) :
    ParallelH.arriveMany n n { count := n, generation := g }
      = { count := n, generation := g + 1 } := by
  have hlast := arriveMany_succ_last n (n - 1) { count := n, generation := g }
  have hn1 : n - 1 + 1 = n := by omega
  rw [hn1] at hlast
  rw [hlast, arrive_below n (n - 1) n g (by omega)]
  have h1 : n - (n - 1) = 1 := by omega
  rw [h1, ParallelH.barrier_wait]
  simp

/-- C8: For a barrier with participant count `n`, every non-final
`wait()` decrements the live counter and blocks on the generation it
observed on entry, which stays unexceeded until the round completes;
the arrival that brings the counter to zero increments the generation,
resets the counter to `n` and releases every waiter blocked on the old
generation; and a full round returns the object to a fresh state, so a
second round with the same `n` participants behaves identically. -/
theorem barrier_decrements_releases_and_reuses (n g k c : Nat)
    (hn : 0 < n) (hk : k < n) (hc : 1 < c) :
    ParallelH.barrier_wait n { count := c, generation := g }
        = ({ count := c - 1, generation := g }, some g)
    ∧ ParallelH.released { count := c - 1, generation := g } g = false
    ∧ ParallelH.barrier_wait n { count := 1, generation := g }
        = ({ count := n, generation := g + 1 }, none)
    ∧ ParallelH.released { count := n, generation := g + 1 } g = true
    ∧ ParallelH.arriveMany n k { count := n, generation := g }
        = { count := n - k, generation := g }
    ∧ ParallelH.arriveMany n n { count := n, generation := g }
        = { count := n, generation := g + 1 }
    ∧ ParallelH.arriveMany n n
        (ParallelH.arriveMany n n { count := n, generation := g })
        = { count := n, generation := g + 2 } := by
  refine ⟨?_, ?_, ?_, ?_, ?_, ?_, ?_⟩
  · rw [ParallelH.barrier_wait, if_neg (by simp; omega : ¬ ({ count := c, generation := g } : BarrierState).count - 1 = 0)]
  · simp [ParallelH.released]
  · rw [ParallelH.barrier_wait]
    simp
  · simp [ParallelH.released]
  · exact arrive_below n k n g hk
  · exact barrier_full_round n hn g
  · rw [barrier_full_round n hn g, barrier_full_round n hn (g + 1)]

/-- Witness for C8: three participants, generation 0, after two
arrivals. -/
theorem barrier_decrements_witness :
    ParallelH.barrier_wait 3 { count := 2, generation := 0 }
        = ({ count := 1, generation := 0 }, some 0)
    ∧ ParallelH.released { count := 1, generation := 0 } 0 = false
    ∧ ParallelH.barrier_wait 3 { count := 1, generation := 0 }
        = ({ count := 3, generation := 1 }, none)
    ∧ ParallelH.released { count := 3, generation := 1 } 0 = true
    ∧ ParallelH.arriveMany 3 2 { count := 3, generation := 0 }
        = { count := 1, generation := 0 }
    ∧ ParallelH.arriveMany 3 3 { count := 3, generation := 0 }
        = { count := 3, generation := 1 }
    ∧ ParallelH.arriveMany 3 3
        (ParallelH.arriveMany 3 3 { count := 3, generation := 0 })
        = { count := 3, generation := 2 } :=
  barrier_decrements_releases_and_reuses 3 0 2 2 (by decide) (by decide) (by decide)

namespace ParallelH

/-- Embedding of `single_executor::execute` from
include/parallel_framework.h (lines 282-288): the call performs
`executed.compare_exchange_strong(expected = false, true)` and runs the
supplied function exactly when the exchange succeeds.  Concurrent calls
serialize on the atomic flag, so a sequence of flag states captures
every interleaving.  Returns the new flag and whether `fn` ran. -/
def single_execute (flag : Bool) : Bool × Bool :=
  if flag = false then (true, true) else (flag, false)

/-- Embedding of `single_executor::reset` (line 290): clear the flag. -/
def single_reset (_flag : Bool) : Bool :=
  false

/-- The flag and the number of times a function body ran across `k`
successive `execute` calls starting from the given flag state. -/
def execSeq : Bool → Nat → Bool × Nat
  | f, 0 => (f, 0)
  | f, k + 1 =>
    ((execSeq (single_execute f).1 k).1,
      (if (single_execute f).2 then 1 else 0) + (execSeq (single_execute f).1 k).2)

end ParallelH

/-- With the flag already set, no later call in the phase ever runs. -/
theorem execSeq_true (k : Nat) : ParallelH.execSeq true k = (true, 0) := by
  induction k with
  | zero => rfl
  | succ k ih =>
    show ((ParallelH.execSeq true k).1, 0 + (ParallelH.execSeq true k).2)
      = (true, 0)
    rw [ih]
    rfl

/-- C9: `single_executor` runs the supplied function exactly once per
phase: starting from a clear flag, the first `execute` transitions the
flag and runs the function, every further call in the same phase is
skipped — any number of calls in a phase produce exactly one run — and
after `reset()` clears the flag a fresh sequence of calls again runs
exactly once. -/
theorem single_executor_runs_exactly_once_per_phase :
    ∀ (b : Bool) (k : Nat),
      ParallelH.single_execute false = (true, true)
      ∧ ParallelH.single_execute true = (true, false)
      ∧ (ParallelH.execSeq false (k + 1)).2 = 1
      ∧ (ParallelH.execSeq true k).2 = 0
      ∧ (ParallelH.execSeq (ParallelH.single_reset b) (k + 1)).2 = 1 := by
  intro b k
  have hfalse : (ParallelH.execSeq false (k + 1)).2 = 1 := by
    show (if (ParallelH.single_execute false).2 then 1 else 0)
        + (ParallelH.execSeq (ParallelH.single_execute false).1 k).2 = 1
    rw [show ParallelH.single_execute false = (true, true) from rfl]
    rw [execSeq_true k]
    rfl
  refine ⟨rfl, rfl, hfalse, ?_, hfalse⟩
  rw [execSeq_true k]

/-- Per-thread accumulator vector of `reduction_variable` from
include/parallel_framework.h (lines 146-169): `thread_local_values` is
sized by the global thread count at construction and filled with the
identity value. -/
structure reduction_variable (T : Type) where
  thread_local_values : List T

namespace ParallelH

/-- The constructor of `reduction_variable` (lines 154-156): a vector
of `n` copies of the identity value. -/
def reduction_variable_init {T : Type} (n : Nat) (ident : T) : reduction_variable T :=
  ⟨List.replicate n ident⟩

/-- The slot index computed by `reduction_variable::local` (lines
158-160): `get_thread_num() % thread_local_values.size()`. -/
def localIdx (n tid : Nat) : Nat :=
  tid % n

/-- Embedding of `reduction_variable::local` (lines 158-160): the
element of the slot vector at the caller's thread id modulo the vector
size (`none` would model out-of-bounds access). -/
def localSlot {T : Type} (rv : reduction_variable T) (tid : Nat) : Option T :=
  rv.thread_local_values[tid % rv.thread_local_values.length]?

end ParallelH

/-- C10: `reduction_variable::local` indexes its slot vector at the
caller's runtime thread id modulo the slot count, which is always in
bounds no matter how large the id grows; thread ids congruent modulo
the slot count (such as `tid` and `tid + n`) receive the same slot; and
slots are exclusive per thread exactly while every live id is below the
slot count — distinct ids below the count get distinct slots. -/
theorem reduction_local_slot_in_bounds_modulo (n tid t1 t2 : Nat)
    (hn : 0 < n) (h1 : t1 < n) (h2 : t2 < n) (hne : t1 ≠ t2) :
    (ParallelH.reduction_variable_init n (0 : Nat)).thread_local_values.length = n
    ∧ ParallelH.localIdx n tid < n
    ∧ (ParallelH.localSlot (ParallelH.reduction_variable_init n (0 : Nat)) tid).isSome
        = true
    ∧ ParallelH.localIdx n (tid + n) = ParallelH.localIdx n tid
    ∧ ParallelH.localIdx n t1 ≠ ParallelH.localIdx n t2 := by
  have hlen : (ParallelH.reduction_variable_init n (0 : Nat)).thread_local_values.length
      = n := by
    simp [ParallelH.reduction_variable_init]
  refine ⟨hlen, Nat.mod_lt _ hn, ?_, ?_, ?_⟩
  · rw [ParallelH.localSlot]
    rw [List.getElem?_eq_getElem (by rw [hlen]; exact Nat.mod_lt _ hn)]
    rfl
  · simp [ParallelH.localIdx, Nat.add_mod_right]
  · simp only [ParallelH.localIdx]
    rw [Nat.mod_eq_of_lt h1, Nat.mod_eq_of_lt h2]
    exact hne

/-- Witness for C10: two slots, a caller with runtime id 5, and the
two in-range ids 0 and 1. -/
theorem reduction_local_slot_witness :
    (ParallelH.reduction_variable_init 2 (0 : Nat)).thread_local_values.length = 2
    ∧ ParallelH.localIdx 2 5 < 2
    ∧ (ParallelH.localSlot (ParallelH.reduction_variable_init 2 (0 : Nat)) 5).isSome
        = true
    ∧ ParallelH.localIdx 2 (5 + 2) = ParallelH.localIdx 2 5
    ∧ ParallelH.localIdx 2 0 ≠ ParallelH.localIdx 2 1 :=
  reduction_local_slot_in_bounds_modulo 2 5 0 1 (by decide) (by decide) (by decide)
    (by decide)

/-- every-task-drained lemma: with the stop flag set, a worker that sees
queue `q` executes exactly the tasks of `q`, front to back, before its
exit step. -/
theorem drainFuel_eq (q : List Task) : ∀ fuel, q.length ≤ fuel →
    DiskannH.drainFuel fuel q = q := by
  induction q with
  | nil =>
    intro fuel _
    cases fuel with
    | zero => rfl
    | succ n => rfl
  | cons t rest ih =>
    intro fuel hf
    cases fuel with
    | zero => simp at hf
    | succ n =>
      have hstep : DiskannH.workerStep true (t :: rest) = (DiskannH.WorkerAct.run t, rest) := by
        simp [DiskannH.workerStep]
      simp only [DiskannH.drainFuel, hstep]
      have : rest.length ≤ n := by
        simpa [List.length_cons, Nat.succ_le_succ_iff] using hf
      rw [ih n this]

/-- C7: A worker thread never exits its loop while the task queue is
non-empty: it exits exactly when the stop flag is set and the queue is
empty, and during shutdown (stop signaled, workers woken, joined) a
worker starting from queue `q` runs every queued task, in FIFO order,
before exiting — the queue is drained, never discarded. -/
theorem worker_exits_only_stopped_empty_and_shutdown_drains :
    (∀ (stop : Bool) (q : List Task),
      (DiskannH.workerStep stop q).1 = DiskannH.WorkerAct.exit ↔ (stop = true ∧ q = []))
    ∧ (∀ q : List Task, DiskannH.shutdownDrain q = q) := by
  constructor
  · intro stop q
    cases stop <;> cases q <;> simp [DiskannH.workerStep]
  · intro q
    exact drainFuel_eq q q.length (Nat.le_refl _)

/-- C2 (counter-evidence): submitting to a stopped pool.  The
parallel_framework.h pool rejects the task with an explicit error, but
the diskann_parallel.h pool has no stop check in `enqueue`: with the
stop flag already set it still accepts the task into the queue and
returns a handle, so the submission does not fail explicitly. -/
theorem enqueue_after_stop_silently_accepted :
    DiskannH.enqueue { tasks := [], stop := true } 7
      = Except.ok { tasks := [7], stop := true }
    ∧ ParallelH.enqueue { tasks := [], stop := true } 7
      = Except.error "enqueue on stopped ThreadPool" := by
  constructor
  · rfl
  · rfl

end DiskANNVerify
